import Mathlib

/-!
Verification of the core of the p25 repository: the BCH(63,16,23)
coder/decoder (`src/coding/bch.rs`), the C4FM impulse shaper
(`src/baseband/encode.rs`) and the `ServiceAccessPoint` table
(`src/p25/data/values.rs`).

The repository ships only those three files; the GF(2^6) arithmetic
(`coding/galois.rs`), the Berlekamp-Massey / Chien-search machinery
(`coding/bmcf.rs`), the `matrix_mul_systematic!` macro, `bits::Dibit` and
`consts::SYMBOL_PERIOD` are declared and used but their sources are absent.
Those parts are modelled from the specification (sections 4.1-4.6 of the
spec), and each such definition carries a doc comment saying so.  The
models reproduce every test vector of `src/coding/bch.rs` and
`src/baseband/encode.rs`.

Machine integers are modelled as `Nat`; a field element of GF(2^6) is its
6-bit polynomial form (a `Nat` below 64), a polynomial over the field is a
little-endian `List Nat` of length 24.
-/

namespace P25

/-! ### GF(2^6) arithmetic

Modelled from the spec, section 4.1: the field is defined by the primitive
polynomial `x^6 + x + 1` over GF(2); addition is XOR of polynomial forms;
multiplication is the field multiplication (`(α^i)·(α^j) = α^(i+j mod 63)`,
zero annihilates); the inverse of `α^k` is `α^(63-k mod 63)`.  Elements are
kept in polynomial form; multiplication is carried out by shift-and-add with
reduction, which agrees with the power-form contract (see
`gfmul_expα` below). -/

/-- Multiply a polynomial-form element by `α`, reducing by `x^6 + x + 1`. -/
def mulα (a : Nat) : Nat :=
  let b := a * 2
  if 64 ≤ b then b ^^^ 0b1000011 else b

/-- `expα n` is `α^(n mod 63)` in polynomial form (the spec's `for_power`). -/
def expα (n : Nat) : Nat :=
  (List.range (n % 63)).foldl (fun a _ => mulα a) 1

/-- Shift-and-add multiplication over the 6 bits of the second operand. -/
def gfmulAux : Nat → Nat → Nat → Nat
  | 0, _, _ => 0
  | k + 1, a, b =>
      (if b &&& 1 = 1 then a else 0) ^^^ gfmulAux k (mulα a) (b >>> 1)

/-- Field multiplication in GF(2^6), both operands in polynomial form. -/
def gfmul (a b : Nat) : Nat := gfmulAux 6 a b

/-- Discrete logarithm: the power `k < 63` with `α^k = a`, or `0` for the
zero element (which has no power). -/
def gflog (a : Nat) : Nat :=
  (List.range 63).foldl (fun r k => if expα k = a then k else r) 0

/-- Field inverse by the spec's power rule: the inverse of `α^k` is
`α^((63 - k) mod 63)`. -/
def gfinv (a : Nat) : Nat := expα ((63 - gflog a) % 63)

/-- Field division `a / b = a · b⁻¹`. -/
def gfdiv (a b : Nat) : Nat := gfmul a (gfinv b)

/-! ### Polynomials over GF(2^6)

Modelled from the spec, sections 3 and 4.2: a fixed-capacity, dense,
little-endian coefficient sequence; for the BCH code the capacity is the
length of the `BCHCoefs` array of `src/coding/bch.rs` line 104
(`[P25Codeword; 22 + 2]`).  All operations truncate to the capacity. -/

/-- Length of the `BCHCoefs` coefficient array (`22 + 2`, bch.rs line 104). -/
def bchCoefsLen : Nat := 22 + 2

/-- The code distance reported by `PolynomialCoefs for BCHCoefs`
(bch.rs line 116). -/
def bchDistance : Nat := 23

/-- Build a polynomial from an initial coefficient list, padding with zeros
to the fixed capacity (the spec's `new`). -/
def mkPoly (l : List Nat) : List Nat := (l ++ List.replicate bchCoefsLen 0).take bchCoefsLen

/-- Coefficient at index `i` (zero beyond the stored length). -/
def pcoef (p : List Nat) (i : Nat) : Nat := p.getD i 0

/-- Index of the highest nonzero coefficient, or `none` for the zero
polynomial (the spec's `degree`). -/
def pdeg (p : List Nat) : Option Nat :=
  (List.range bchCoefsLen).foldl (fun a i => if pcoef p i ≠ 0 then some i else a) none

/-- Polynomial addition: coefficientwise XOR. -/
def padd (p q : List Nat) : List Nat := List.zipWith (fun a b => a ^^^ b) p q

/-- Scalar multiplication of every coefficient. -/
def pscale (c : Nat) (p : List Nat) : List Nat := p.map (fun x => gfmul c x)

/-- Multiplication by `x^m`, truncated to the capacity. -/
def pshift (m : Nat) (p : List Nat) : List Nat :=
  (List.replicate m 0 ++ p).take bchCoefsLen

/-- Horner evaluation of the polynomial at a field element. -/
def peval (x : Nat) (p : List Nat) : Nat := p.foldr (fun c a => c ^^^ gfmul x a) 0

/-! ### Systematic encoding (bch.rs lines 12-14 and 52-101) -/

/-- Generator matrix from `src/coding/bch.rs` lines 52-101, one 16-bit row
per parity bit. -/
def GEN : List Nat := [
  0b1110110001000111,
  0b1001101001100100,
  0b0100110100110010,
  0b0010011010011001,
  0b1111111100001011,
  0b1001001111000010,
  0b0100100111100001,
  0b1100100010110111,
  0b1000100000011100,
  0b0100010000001110,
  0b0010001000000111,
  0b1111110101000100,
  0b0111111010100010,
  0b0011111101010001,
  0b1111001111101111,
  0b1001010110110000,
  0b0100101011011000,
  0b0010010101101100,
  0b0001001010110110,
  0b0000100101011011,
  0b1110100011101010,
  0b0111010001110101,
  0b1101011001111101,
  0b1000011101111001,
  0b1010111111111011,
  0b1011101110111010,
  0b0101110111011101,
  0b1100001010101001,
  0b1000110100010011,
  0b1010101011001110,
  0b0101010101100111,
  0b1100011011110100,
  0b0110001101111010,
  0b0011000110111101,
  0b1111010010011001,
  0b1001011000001011,
  0b1010011101000010,
  0b0101001110100001,
  0b1100010110010111,
  0b1000111010001100,
  0b0100011101000110,
  0b0010001110100011,
  0b1111110110010110,
  0b0111111011001011,
  0b1101001100100010,
  0b0110100110010001,
  0b1101100010001111,
  0b0000000000000011]

/-- GF(2) dot product of a 16-bit generator row with the data word. -/
def par16 (g w : Nat) : Nat :=
  (List.range 16).foldl (fun a j => a ^^^ ((g >>> j) &&& (w >>> j) &&& 1)) 0

/-- Fold of the systematic matrix multiplication: shift the accumulator left
and append the parity bit of each row. -/
def encAux (l : List Nat) (w x : Nat) : Nat :=
  l.foldl (fun acc row => 2 * acc + par16 row w) x

/-- Modelled from the spec, section 4.6: `encode` expands the
`matrix_mul_systematic!` macro (whose source is absent from the repository)
as the systematic product `data ‖ parity`: starting from the 16 data bits,
one parity bit per generator row is appended, giving the 64-bit codeword.
This reproduces the `test_encode` vectors of bch.rs exactly. -/
def encode (w : Nat) : Nat := encAux GEN w w

/-! ### Syndromes (bch.rs lines 123-135) -/

/-- Syndrome coefficient `S_k`: the received word evaluated at `α^k`, i.e.
the sum of `α^(b·k)` over the set bits `b` of the 63-bit word. -/
def synAt (k word : Nat) : Nat :=
  (List.range 63).foldl
    (fun s b => if (word >>> b) &&& 1 = 1 then s ^^^ expα (b * k % 63) else s) 0

/-- The syndrome polynomial `1 + S_1 x + … + S_22 x^22` of bch.rs lines
123-135: a sentinel `α^0` at index 0 followed by the 22 true syndromes,
padded to the capacity.  The bit range and the sentinel follow the source;
the word is 63 bits wide (spec section 4.3). -/
def syndromes (word : Nat) : List Nat :=
  mkPoly (1 :: (List.range 22).map (fun j => synAt (j + 1) word))

/-! ### Berlekamp-Massey (spec section 4.4)

Modelled from the spec, section 4.4: `coding/bmcf.rs` is absent from the
repository, so `BerlMasseyDecoder::decode` is modelled as the exact
recurrence the spec states: state `(Λ, B, L, m, b)` initialised to
`(1, 1, 0, 1, 1)`; for steps `n = 0 … 2t-1` (`t = 11`) the discrepancy is
`Δ = Σ_{i=0..L} Λ_i · S_{n-i}`, and the three update cases are as written
there.  This model reproduces the `test_decoder` and `test_decode` vectors
of bch.rs exactly. -/

/-- State of the Berlekamp-Massey recurrence. -/
structure BMState where
  lam : List Nat
  bpoly : List Nat
  bigL : Nat
  m : Nat
  bdisc : Nat

/-- Discrepancy `Δ = Σ_{i=0..L} Λ_i · S_{n-i}`. -/
def bmDelta (st : BMState) (S : List Nat) (n : Nat) : Nat :=
  (List.range (st.bigL + 1)).foldl
    (fun a i => a ^^^ gfmul (pcoef st.lam i) (pcoef S (n - i))) 0

/-- One step of the recurrence (spec section 4.4, cases 2-4; subtraction is
XOR in characteristic 2; the discrepancy `Δ` of the three cases is written
out as `bmDelta st S n` each time). -/
def bmStep (S : List Nat) (st : BMState) (n : Nat) : BMState :=
  if bmDelta st S n = 0 then { st with m := st.m + 1 }
  else if 2 * st.bigL ≤ n then
    { lam := padd st.lam (pscale (gfdiv (bmDelta st S n) st.bdisc) (pshift st.m st.bpoly)),
      bpoly := st.lam,
      bigL := n + 1 - st.bigL,
      m := 1,
      bdisc := bmDelta st S n }
  else
    { st with
      lam := padd st.lam (pscale (gfdiv (bmDelta st S n) st.bdisc) (pshift st.m st.bpoly)),
      m := st.m + 1 }

/-- Run the 22 steps of the recurrence from the initial state. -/
def bmRun (S : List Nat) : BMState :=
  (List.range 22).foldl (bmStep S) ⟨mkPoly [1], mkPoly [1], 0, 1, 1⟩

/-- The error-locator polynomial produced from a syndrome polynomial. -/
def bmDecode (S : List Nat) : List Nat := (bmRun S).lam

/-! ### Chien search (spec section 4.5)

Modelled from the spec, section 4.5: `bmcf::Errors` is absent from the
repository.  Candidate positions `i ∈ [0, 62]` are scanned in decreasing
order; a root of `Λ` at `α^(-i)` marks an error at bit `i`; the reported
error value is the sentinel `α^0` (binary code); at most `deg Λ` locations
are yielded.  This reproduces the `test_locs` vector of bch.rs exactly. -/

/-- All roots of the locator among `α^(-i)`, as `(position, value)` pairs in
decreasing position order. -/
def chienAll (lam : List Nat) : List (Nat × Nat) :=
  ((List.range 63).reverse).filterMap
    (fun i => if peval (expα ((63 - i) % 63)) lam = 0 then some (i, 1) else none)

/-- The error iterator `Errors::new(Λ, syn)`: the roots of `Λ`, stopping
after `deg Λ` of them.  The syndrome argument is carried by the source
interface; for this binary code the error value is always `α^0` (spec
section 4.5), so the syndromes do not enter the value computation. -/
def errsList (lam syn : List Nat) : List (Nat × Nat) :=
  chienAll lam |>.take ((pdeg lam).getD 0)

/-! ### Decoding (bch.rs lines 19-49) -/

/-- Result of `decode`: either one of the two panics the source can raise
(the `expect` at line 30, the `assert!` at line 39) or an ordinary
`Option<(u16, usize)>` value. -/
inductive DecRes where
  | panic : DecRes
  | ok : Option (Nat × Nat) → DecRes
deriving DecidableEq

/-- `decode` of bch.rs lines 19-49: strip the parity bit, compute the
syndromes, run Berlekamp-Massey, take `deg Λ` error locations, flip those
bits and compare the count; the `expect`/`assert!` of the source are
modelled as `DecRes.panic`. -/
def decode (word : Nat) : DecRes :=
  let w := word >>> 1
  let syn := syndromes w
  let lam := bmDecode syn
  match pdeg lam with
  | none => DecRes.panic
  | some errors =>
    let locs := (chienAll lam).take errors
    if locs.all (fun p => p.2 = 1) then
      let w2 := locs.foldl (fun a p => a ^^^ (1 <<< p.1)) w
      if locs.length = errors then DecRes.ok (some (w2 >>> 47, errors))
      else DecRes.ok none
    else DecRes.panic

/-- Bit-population count over the 64 bit positions a codeword can occupy. -/
def popc (n : Nat) : Nat :=
  (List.range 64).foldl (fun a j => a + ((n >>> j) &&& 1)) 0

/-! ### C4FM impulse shaper (baseband/encode.rs lines 7-50)

The shaper itself is `src/baseband/encode.rs`; its collaborators are
modelled from the spec: `bits::Dibit` (a validated 2-bit value, spec
section 3) becomes `Fin 4`, and `consts::SYMBOL_PERIOD` (the spec's
parametric symbol period `P`, section 6) becomes an explicit parameter.
The emitted `f32` samples are drawn from the fixed table
`±0.18 / ±0.06 / 0.0` and never computed with, so they are modelled
exactly as integer hundredths (`18`, `6`, `-6`, `-18`, `0`). -/

/-- State of `C4fmImpulses`: the remaining dibit source and the global
sample index (encode.rs lines 7-12). -/
structure C4fmState where
  src : List (Fin 4)
  sample : Nat

/-- The dibit-to-impulse table of encode.rs lines 39-45, in source order,
in integer hundredths. -/
def impulseMap (d : Fin 4) : Int :=
  if d.val = 0b01 then 18
  else if d.val = 0b00 then 6
  else if d.val = 0b10 then -6
  else -18

/-- One `next()` call of the `C4fmImpulses` iterator (encode.rs lines
27-49): advance the sample index; away from a symbol boundary emit `0.0`;
at a boundary pull a dibit and emit its impulse, or stop when the source is
exhausted. -/
def c4fmNext (P : Nat) (st : C4fmState) : Option (Int × C4fmState) :=
  let s := st.sample
  if s % P ≠ 0 then some (0, ⟨st.src, s + 1⟩)
  else
    match st.src with
    | [] => none
    | d :: rest => some (impulseMap d, ⟨rest, s + 1⟩)

/-- Drive the iterator until it stops (or the fuel runs out), collecting
the emitted samples. -/
def c4fmRunAux (P : Nat) : Nat → C4fmState → List Int
  | 0, _ => []
  | fuel + 1, st =>
    match c4fmNext P st with
    | none => []
    | some (x, st2) => x :: c4fmRunAux P fuel st2

/-- All samples the shaper emits for a finite dibit source, starting at
sample index 0.  The fuel `src.length * P + 1` is enough to reach the
iterator's own termination (see the fuel-independence part of the C8
theorem). -/
def c4fmRun (P : Nat) (src : List (Fin 4)) : List Int :=
  c4fmRunAux P (src.length * P + 1) ⟨src, 0⟩

/-! ### Service access points (p25/data/values.rs) -/

/-- The `ServiceAccessPoint` enumeration of values.rs lines 1-22. -/
inductive ServiceAccessPoint where
  | unencryptedUserData
  | encryptedUserData
  | circuitData
  | circuitDataControl
  | packetData
  | arp
  | sndcpControl
  | extendedAddressing
  | registrationAuth
  | channelReassignment
  | systemConfiguration
  | loopback
  | statistics
  | outOfService
  | paging
  | configuration
  | unencryptedKeyManagement
  | encryptedKeyManagement
  | trunkingControl
  | encryptedTrunkingControl
deriving DecidableEq, Fintype

/-- `ServiceAccessPoint::from_bits` (values.rs lines 25-53).  The source
asserts `bits >> 6 == 0` and panics otherwise; the theorems below only
evaluate it on 6-bit inputs, where the assertion passes. -/
def ServiceAccessPoint.fromBits (bits : Nat) : Option ServiceAccessPoint :=
  match bits with
  | 0x00 => some .unencryptedUserData
  | 0x01 => some .encryptedUserData
  | 0x02 => some .circuitData
  | 0x03 => some .circuitDataControl
  | 0x04 => some .packetData
  | 0x05 => some .arp
  | 0x06 => some .sndcpControl
  | 0x1F => some .extendedAddressing
  | 0x20 => some .registrationAuth
  | 0x21 => some .channelReassignment
  | 0x22 => some .systemConfiguration
  | 0x23 => some .loopback
  | 0x24 => some .statistics
  | 0x25 => some .outOfService
  | 0x26 => some .paging
  | 0x27 => some .configuration
  | 0x28 => some .unencryptedKeyManagement
  | 0x29 => some .encryptedKeyManagement
  | 0x3D => some .trunkingControl
  | 0x3F => some .encryptedTrunkingControl
  | _ => none

/-- `ServiceAccessPoint::to_bits` (values.rs lines 55-80). -/
def ServiceAccessPoint.toBits : ServiceAccessPoint → Nat
  | .unencryptedUserData => 0x00
  | .encryptedUserData => 0x01
  | .circuitData => 0x02
  | .circuitDataControl => 0x03
  | .packetData => 0x04
  | .arp => 0x05
  | .sndcpControl => 0x06
  | .extendedAddressing => 0x1F
  | .registrationAuth => 0x20
  | .channelReassignment => 0x21
  | .systemConfiguration => 0x22
  | .loopback => 0x23
  | .statistics => 0x24
  | .outOfService => 0x25
  | .paging => 0x26
  | .configuration => 0x27
  | .unencryptedKeyManagement => 0x28
  | .encryptedKeyManagement => 0x29
  | .trunkingControl => 0x3D
  | .encryptedTrunkingControl => 0x3F

/-! ## Helper lemmas -/

set_option maxRecDepth 1000000
set_option maxHeartbeats 4000000

/-- A predicate preserved by every step of a left fold holds of its result. -/
theorem foldl_inv {α β : Type} {P : β → Prop} {f : β → α → β} (l : List α) (b : β)
    (hb : P b) (hf : ∀ x a, P x → P (f x a)) : P (l.foldl f b) := by
  induction l generalizing b with
  | nil => exact hb
  | cons h t ih => exact ih _ (hf _ _ hb)

/-- `mkPoly` always produces the fixed capacity. -/
theorem mkPoly_length (l : List Nat) : (mkPoly l).length = bchCoefsLen := by
  simp [mkPoly]

/-- `padd` preserves the capacity. -/
theorem padd_length (p q : List Nat) (hp : p.length = bchCoefsLen)
    (hq : q.length = bchCoefsLen) : (padd p q).length = bchCoefsLen := by
  simp [padd, hp, hq]

/-- `pscale` preserves the length. -/
theorem pscale_length (c : Nat) (p : List Nat) : (pscale c p).length = p.length := by
  simp [pscale]

/-- `pshift` of a full-capacity polynomial keeps the capacity. -/
theorem pshift_length (m : Nat) (p : List Nat) (hp : p.length = bchCoefsLen) :
    (pshift m p).length = bchCoefsLen := by
  simp [pshift, hp, bchCoefsLen]

/-- Reading a coefficient through `getElem?`. -/
theorem pcoef_eq_of_getElem? {p : List Nat} {i v : Nat} (h : p[i]? = some v) :
    pcoef p i = v := by
  simp [pcoef, List.getD_eq_getElem?_getD, h]

/-- A coefficient below the stored length is present. -/
theorem getElem?_eq_pcoef {p : List Nat} {i : Nat} (h : i < p.length) :
    p[i]? = some (pcoef p i) := by
  simp [pcoef, List.getD_eq_getElem?_getD, List.getElem?_eq_getElem h]

/-- `syndromes` produces a full-capacity polynomial. -/
theorem syndromes_length (word : Nat) : (syndromes word).length = bchCoefsLen :=
  mkPoly_length _

/-- The two polynomials of the Berlekamp-Massey state keep the capacity, the
step counter `m` stays positive, and the constant coefficient of `Λ` stays
`1` throughout the recurrence. -/
theorem bmRun_inv (S : List Nat) :
    (bmRun S).lam.length = bchCoefsLen ∧ (bmRun S).bpoly.length = bchCoefsLen ∧
      1 ≤ (bmRun S).m ∧ pcoef (bmRun S).lam 0 = 1 := by
  have h1 : ∀ (q : List Nat) (m : Nat), 1 ≤ m → (pshift m q)[0]? = some 0 := by
    intro q m hm
    match m, hm with
    | m + 1, _ =>
      show (List.take bchCoefsLen (List.replicate (m + 1) 0 ++ q))[0]? = some 0
      rw [List.replicate_succ, List.cons_append,
        List.getElem?_take_of_lt (by decide), List.getElem?_cons_zero]
  have h0 : ∀ (q : List Nat) (c m : Nat), 1 ≤ m →
      (pscale c (pshift m q))[0]? = some 0 := by
    intro q c m hm
    have := h1 q m hm
    simp only [pscale, List.getElem?_map, this]
    simp [gfmul, gfmulAux]
  have hstep : ∀ (st : BMState) (n : Nat),
      (st.lam.length = bchCoefsLen ∧ st.bpoly.length = bchCoefsLen ∧
        1 ≤ st.m ∧ pcoef st.lam 0 = 1) →
      ((bmStep S st n).lam.length = bchCoefsLen ∧
        (bmStep S st n).bpoly.length = bchCoefsLen ∧
        1 ≤ (bmStep S st n).m ∧ pcoef (bmStep S st n).lam 0 = 1) := by
    intro st n ⟨hl, hb, hm, hc⟩
    have hshift : (pshift st.m st.bpoly).length = bchCoefsLen := pshift_length _ _ hb
    have hscale : ∀ c, (pscale c (pshift st.m st.bpoly)).length = bchCoefsLen := by
      intro c; rw [pscale_length]; exact hshift
    have hpadd : ∀ c, (padd st.lam (pscale c (pshift st.m st.bpoly))).length = bchCoefsLen :=
      fun c => padd_length _ _ hl (hscale c)
    have hcoef : ∀ c, pcoef (padd st.lam (pscale c (pshift st.m st.bpoly))) 0 = 1 := by
      intro c
      have hq : (pscale c (pshift st.m st.bpoly))[0]? = some 0 := h0 st.bpoly c st.m hm
      have hp : st.lam[0]? = some 1 := by
        rw [getElem?_eq_pcoef (by rw [hl]; decide), hc]
      apply pcoef_eq_of_getElem?
      simp only [padd, List.getElem?_zipWith, hp, hq]
      decide
    unfold bmStep
    split
    · exact ⟨hl, hb, Nat.le_add_left 1 st.m, hc⟩
    · split
      · exact ⟨hpadd _, hl, Nat.le_refl 1, hcoef _⟩
      · exact ⟨hpadd _, hb, Nat.le_add_left 1 st.m, hcoef _⟩
  exact foldl_inv (P := fun st : BMState =>
      st.lam.length = bchCoefsLen ∧ st.bpoly.length = bchCoefsLen ∧
        1 ≤ st.m ∧ pcoef st.lam 0 = 1)
    (List.range 22) _ (by refine ⟨by decide, by decide, by decide, by decide⟩) hstep

/-- A polynomial with nonzero constant coefficient has a degree. -/
theorem pdeg_isSome_of_coef_zero (p : List Nat) (hp : pcoef p 0 = 1) :
    (pdeg p).isSome = true := by
  have h24 : List.range bchCoefsLen = 0 :: List.range' 1 23 := by decide
  unfold pdeg
  rw [h24]
  have hstep : (if pcoef p 0 ≠ 0 then some 0 else none) = some 0 := by
    rw [hp]; decide
  show (((0 : Nat) :: List.range' 1 23).foldl
      (fun a i => if pcoef p i ≠ 0 then some i else a) none).isSome = true
  rw [List.foldl_cons, hstep]
  exact foldl_inv (P := fun o : Option Nat => o.isSome = true) _ _ rfl
    (by intro x a hx; split <;> simp [hx])

/-- Every pair the Chien search yields carries the sentinel value `α^0`. -/
theorem chienAll_snd (lam : List Nat) : ∀ x ∈ chienAll lam, x.2 = 1 := by
  intro x hx
  unfold chienAll at hx
  rw [List.mem_filterMap] at hx
  obtain ⟨i, _, hi⟩ := hx
  by_cases h : peval (expα ((63 - i) % 63)) lam = 0
  · rw [if_pos h] at hi
    cases hi
    rfl
  · rw [if_neg h] at hi
    cases hi

/-- The shape of every `decode` result: the locator always has a degree
`e`, the sentinel values satisfy the assertion, and the result is `Some`
or `None` according to whether the Chien search supplied `e` locations. -/
theorem decode_shape (word : Nat) :
    ∃ e, pdeg (bmDecode (syndromes (word >>> 1))) = some e ∧
      decode word =
        (if ((chienAll (bmDecode (syndromes (word >>> 1)))).take e).length = e
          then DecRes.ok (some
            ((((chienAll (bmDecode (syndromes (word >>> 1)))).take e).foldl
              (fun a p => a ^^^ (1 <<< p.1)) (word >>> 1)) >>> 47, e))
          else DecRes.ok none) := by
  have hinv := bmRun_inv (syndromes (word >>> 1))
  have hdeg := pdeg_isSome_of_coef_zero _ hinv.2.2.2
  obtain ⟨e, he0⟩ := Option.isSome_iff_exists.mp hdeg
  have he : pdeg (bmDecode (syndromes (word >>> 1))) = some e := he0
  refine ⟨e, he, ?_⟩
  have hall : (((chienAll (bmDecode (syndromes (word >>> 1)))).take e).all
      (fun p => p.2 = 1)) = true := by
    rw [List.all_eq_true]
    intro x hx
    have hx1 := chienAll_snd _ x (List.mem_of_mem_take hx)
    simp [hx1]
  unfold decode
  dsimp only
  rw [he]
  dsimp only
  rw [hall]
  rfl

/-! ## Claim C9: decode is total -/

/-- C9: for every 64-bit input word, the Berlekamp-Massey locator has a
degree (so the `expect` at bch.rs line 30 succeeds), every error value the
Chien search yields is the sentinel `α^0` (so the `assert!` at line 39
holds), and `decode` always returns an ordinary `Some`/`None` result, never
a panic. -/
theorem c9_decode_total (word : Nat) :
    (pdeg (bmDecode (syndromes (word >>> 1)))).isSome = true ∧
    (∀ x ∈ chienAll (bmDecode (syndromes (word >>> 1))), x.2 = expα 0) ∧
    ∃ r, decode word = DecRes.ok r := by
  obtain ⟨e, he, hd⟩ := decode_shape word
  refine ⟨by rw [he]; rfl, ?_, ?_⟩
  · intro x hx
    have h1 := chienAll_snd _ x hx
    rw [h1]
    decide
  · rw [hd]
    split
    · exact ⟨_, rfl⟩
    · exact ⟨_, rfl⟩

/-! ## Claim C3: the uncorrectable marker -/

/-- C3, counterexample: the claim asserts that a Berlekamp-Massey locator
degree above 11 makes the word uncorrectable, i.e. forces an absent result.
For the word `0x0284006149210082` (13 errors against the all-zero codeword,
which also differs from every codeword in 13 > 11 positions) the locator
has degree 13 and yet `decode` returns `Some((0, 13))`. -/
theorem c3_counterexample :
    ¬ (∀ word : Nat,
        (∃ e, pdeg (bmDecode (syndromes (word >>> 1))) = some e ∧ 11 < e) →
        decode word = DecRes.ok none) := by
  intro h
  have h1 : decode 0x0284006149210082 = DecRes.ok none :=
    h 0x0284006149210082 ⟨13, by decide, by decide⟩
  have h2 : decode 0x0284006149210082 = DecRes.ok (some (0, 13)) := by decide
  rw [h1] at h2
  exact absurd h2 (by decide)

/-- C3, amended: `decode` reports the absent result exactly when the Chien
search locates fewer roots than the degree of the error-locator polynomial;
a locator degree above 11 is not by itself reported as uncorrectable. -/
theorem c3_decode_none_iff (word : Nat) :
    decode word = DecRes.ok none ↔
      ∃ e, pdeg (bmDecode (syndromes (word >>> 1))) = some e ∧
        (chienAll (bmDecode (syndromes (word >>> 1)))).length < e := by
  obtain ⟨e, he, hd⟩ := decode_shape word
  rw [hd]
  constructor
  · intro h
    split at h
    · exact absurd h (by intro hx; cases hx)
    · next hne =>
        refine ⟨e, he, ?_⟩
        rw [List.length_take] at hne
        omega
  · rintro ⟨e', he', hlt⟩
    rw [he] at he'
    cases he'
    rw [if_neg]
    rw [List.length_take]
    omega

/-! ## Claim C10: service access point round-trip -/

/-- C10: every `ServiceAccessPoint` maps to a 6-bit code and
`from_bits` inverts `to_bits`; conversely every 6-bit value either has no
`ServiceAccessPoint` (`from_bits` is `none`) or is one of the 20 assigned
codes. -/
theorem c10_sap_roundtrip :
    (∀ s : ServiceAccessPoint, s.toBits < 0x40 ∧
      ServiceAccessPoint.fromBits s.toBits = some s) ∧
    (∀ b : Fin 64, ServiceAccessPoint.fromBits b.val = none ∨
      ∃ s : ServiceAccessPoint, s.toBits = b.val) := by
  decide

/-! ## Claim C5: the 0xFF00 test vector -/

/-- C5, counterexample: encoding `0xFF00` does not give the value
`0xFF00_9131_0C30_6868` stated by the spec. -/
theorem c5_encode_ff00_counterexample : encode 0xFF00 ≠ 0xFF0091310C306868 := by
  decide

/-- C5, amended: encoding `0xFF00` gives `0xFF00_9310_C230_6868`, the value
asserted by `test_encode` in bch.rs line 151. -/
theorem c5_encode_ff00 : encode 0xFF00 = 0xFF009310C2306868 := by
  decide

/-! ## Claim C6: fixed polynomial capacity -/

/-- C6, counterexample: the coefficient array of `BCHCoefs` has length
`22 + 2 = 24`, which is not `2·d - 2 = 44` for the code distance `d = 23`. -/
theorem c6_capacity_counterexample : ¬ bchCoefsLen = 2 * bchDistance - 2 := by
  decide

/-- C6, amended: the coefficient array has the constant length
`22 + 2 = 24 = d + 1`, and every polynomial operation of the codec
(construction, addition, scalar multiplication, term shift, syndrome
construction and the Berlekamp-Massey recurrence) preserves that length. -/
theorem c6_capacity_invariant :
    bchCoefsLen = 24 ∧
    (∀ l : List Nat, (mkPoly l).length = bchCoefsLen) ∧
    (∀ p q : List Nat, p.length = bchCoefsLen → q.length = bchCoefsLen →
      (padd p q).length = bchCoefsLen) ∧
    (∀ (c : Nat) (p : List Nat), p.length = bchCoefsLen →
      (pscale c p).length = bchCoefsLen) ∧
    (∀ (m : Nat) (p : List Nat), p.length = bchCoefsLen →
      (pshift m p).length = bchCoefsLen) ∧
    (∀ word : Nat, (syndromes word).length = bchCoefsLen) ∧
    (∀ S : List Nat, (bmDecode S).length = bchCoefsLen) := by
  refine ⟨rfl, mkPoly_length, padd_length, ?_, pshift_length, syndromes_length, ?_⟩
  · intro c p hp
    rw [pscale_length]
    exact hp
  · intro S
    exact (bmRun_inv S).1

/-- Witness for C6: the length-preservation statements applied at concrete
polynomials. -/
theorem c6_capacity_invariant_witness :
    (padd (mkPoly [1]) (mkPoly [2, 5])).length = bchCoefsLen ∧
    (pscale 7 (syndromes 3)).length = bchCoefsLen ∧
    (pshift 4 (mkPoly [9])).length = bchCoefsLen :=
  ⟨c6_capacity_invariant.2.2.1 _ _ (by decide) (by decide),
   c6_capacity_invariant.2.2.2.1 7 _ (c6_capacity_invariant.2.2.2.2.2.1 3),
   c6_capacity_invariant.2.2.2.2.1 4 _ (by decide)⟩

/-! ## Claim C7: Chien search ordering -/

/-- C7: the Chien search always reports error locations in strictly
decreasing position order, and for the locator `1 + α^3 x + α^58 x^2`
against the syndromes of `encode(0x0F0F) ⊕ (0b11 << 61)` it yields exactly
`(61, α^0)` then `(60, α^0)` and then nothing (the `test_locs` vector of
bch.rs lines 181-196). -/
theorem c7_chien_order :
    (∀ lam syn : List Nat,
      List.Pairwise (fun a b : Nat × Nat => b.1 < a.1) (errsList lam syn)) ∧
    errsList (mkPoly [expα 0, expα 3, expα 58])
      (syndromes ((encode 0x0F0F ^^^ (0b11 <<< 61)) >>> 1)) =
      [(61, expα 0), (60, expα 0)] := by
  constructor
  · intro lam syn
    apply List.Pairwise.sublist (List.take_sublist _ _)
    unfold chienAll
    apply List.Pairwise.filterMap
      (R := fun a b : Nat => b < a)
    · intro a a' haa' b hb b' hb'
      have hb1 : b.1 = a := by
        by_cases h : peval (expα ((63 - a) % 63)) lam = 0
        · rw [if_pos h, Option.mem_def] at hb
          cases hb
          rfl
        · rw [if_neg h] at hb
          cases hb
      have hb2 : b'.1 = a' := by
        by_cases h : peval (expα ((63 - a') % 63)) lam = 0
        · rw [if_pos h, Option.mem_def] at hb'
          cases hb'
          rfl
        · rw [if_neg h] at hb'
          cases hb'
      rw [hb1, hb2]
      exact haa'
    · rw [List.pairwise_reverse]
      exact List.pairwise_lt_range 63
  · decide

/-! ## GF(2)-linearity of the encoder and the C1/C4 chain -/


/-- Folding xor from an arbitrary start equals start xor the zero-start fold. -/
theorem foldl_xor_init {α : Type} (l : List α) (f : α → Nat) (x : Nat) :
    l.foldl (fun a i => a ^^^ f i) x = x ^^^ l.foldl (fun a i => a ^^^ f i) 0 := by
  induction l generalizing x with
  | nil => simp
  | cons h t ih =>
    rw [List.foldl_cons, List.foldl_cons, ih (x ^^^ f h), ih (0 ^^^ f h)]
    simp [Nat.xor_assoc]

theorem xor_left_comm (a b c : Nat) : a ^^^ (b ^^^ c) = b ^^^ (a ^^^ c) := by
  rw [← Nat.xor_assoc, Nat.xor_comm a b, Nat.xor_assoc]

/-- A fold of pointwise xors splits into the xor of two folds. -/
theorem foldl_xor_pointwise {α : Type} (l : List α) (f g : α → Nat) :
    l.foldl (fun a i => a ^^^ (f i ^^^ g i)) 0 =
      (l.foldl (fun a i => a ^^^ f i) 0) ^^^ (l.foldl (fun a i => a ^^^ g i) 0) := by
  induction l with
  | nil => simp
  | cons h t ih =>
    rw [List.foldl_cons, List.foldl_cons, List.foldl_cons,
      foldl_xor_init t _ (0 ^^^ (f h ^^^ g h)), foldl_xor_init t f (0 ^^^ f h),
      foldl_xor_init t g (0 ^^^ g h), ih]
    simp only [Nat.zero_xor]
    rw [Nat.xor_assoc, Nat.xor_assoc, xor_left_comm (g h)]

/-- Two folds with pointwise-equal step functions agree. -/
theorem foldl_fun_congr {α β : Type} (l : List α) (f g : β → α → β)
    (h : ∀ b a, f b a = g b a) : ∀ x, l.foldl f x = l.foldl g x := by
  induction l with
  | nil => intro x; rfl
  | cons hd t ih =>
    intro x
    rw [List.foldl_cons, List.foldl_cons, h, ih]

/-- Shifting right distributes over xor. -/
theorem xor_shiftRight (x y n : Nat) : (x ^^^ y) >>> n = (x >>> n) ^^^ (y >>> n) := by
  apply Nat.eq_of_testBit_eq
  intro i
  simp [Nat.testBit_shiftRight, Nat.testBit_xor]

/-- A doubled value xored with a bit is the same as adding the bit. -/
theorem two_mul_add_xor (a p : Nat) (hp : p ≤ 1) : 2 * a + p = 2 * a ^^^ p := by
  interval_cases p
  · simp
  · apply Nat.eq_of_testBit_eq
    intro i
    cases i with
    | zero =>
      simp only [Nat.testBit_zero, Nat.testBit_xor]
      have h1 : (2 * a + 1) % 2 = 1 := by omega
      have h2 : (2 * a) % 2 = 0 := by omega
      simp [h1, h2]
    | succ i =>
      have h1 : (2 * a + 1) / 2 = a := by omega
      have h2 : (2 * a) / 2 = a := by omega
      have h3 : (1 : Nat) / 2 = 0 := by omega
      have hL : (2 * a + 1).testBit (i + 1) = a.testBit i := by
        rw [Nat.testBit_succ, h1]
      have hA : (2 * a).testBit (i + 1) = a.testBit i := by
        rw [Nat.testBit_succ, h2]
      have hB : (1 : Nat).testBit (i + 1) = false := by
        rw [Nat.testBit_succ, h3]
        exact Nat.zero_testBit i
      rw [hL, Nat.testBit_xor, hA, hB]
      simp

/-- Doubling distributes over xor. -/
theorem two_mul_xor (a b : Nat) : 2 * (a ^^^ b) = 2 * a ^^^ 2 * b := by
  apply Nat.eq_of_testBit_eq
  intro i
  cases i with
  | zero =>
    simp only [Nat.testBit_zero, Nat.testBit_xor]
    have h1 : (2 * (a ^^^ b)) % 2 = 0 := by omega
    have h2 : (2 * a) % 2 = 0 := by omega
    have h3 : (2 * b) % 2 = 0 := by omega
    simp [h1, h2, h3]
  | succ i =>
    have h1 : (2 * (a ^^^ b)) / 2 = a ^^^ b := by omega
    have h2 : (2 * a) / 2 = a := by omega
    have h3 : (2 * b) / 2 = b := by omega
    have hL : (2 * (a ^^^ b)).testBit (i + 1) = (a ^^^ b).testBit i := by
      rw [Nat.testBit_succ, h1]
    have hA : (2 * a).testBit (i + 1) = a.testBit i := by
      rw [Nat.testBit_succ, h2]
    have hB : (2 * b).testBit (i + 1) = b.testBit i := by
      rw [Nat.testBit_succ, h3]
    rw [hL, Nat.testBit_xor, Nat.testBit_xor, hA, hB]

/-- A power of two xored with anything below it is their sum. -/
theorem two_pow_xor_of_lt : ∀ (i r : Nat), r < 2 ^ i → 2 ^ i ^^^ r = 2 ^ i + r := by
  intro i
  induction i with
  | zero =>
    intro r hr
    interval_cases r
    rfl
  | succ i ih =>
    intro r hr
    have hsplit : r = 2 * (r / 2) + r % 2 := by omega
    have hp : r % 2 ≤ 1 := by omega
    have hhalf : r / 2 < 2 ^ i := by
      have : 2 ^ (i + 1) = 2 ^ i * 2 := by rw [Nat.pow_succ]
      omega
    have h2p : 2 ^ (i + 1) = 2 * 2 ^ i := by rw [Nat.pow_succ]; omega
    calc 2 ^ (i + 1) ^^^ r
        = (2 * 2 ^ i) ^^^ (2 * (r / 2) ^^^ r % 2) := by
          rw [← h2p, ← two_mul_add_xor _ _ hp, ← hsplit]
      _ = ((2 * 2 ^ i) ^^^ 2 * (r / 2)) ^^^ r % 2 := by rw [Nat.xor_assoc]
      _ = 2 * (2 ^ i ^^^ r / 2) ^^^ r % 2 := by rw [two_mul_xor]
      _ = 2 * (2 ^ i + r / 2) ^^^ r % 2 := by rw [ih _ hhalf]
      _ = 2 * (2 ^ i + r / 2) + r % 2 := by rw [← two_mul_add_xor _ _ hp]
      _ = 2 ^ (i + 1) + r := by omega

/-- The syndrome fold written with an explicit xor of an if-term. -/
theorem synAt_eq (k word : Nat) : synAt k word =
    (List.range 63).foldl
      (fun s b => s ^^^ (if (word >>> b) &&& 1 = 1 then expα (b * k % 63) else 0)) 0 := by
  unfold synAt
  apply foldl_fun_congr
  intro s b
  split
  · rfl
  · rw [Nat.xor_zero]

/-- One syndrome term is additive in the received word. -/
theorem synTerm_add (k x y b : Nat) :
    (if ((x ^^^ y) >>> b) &&& 1 = 1 then expα (b * k % 63) else 0) =
      (if (x >>> b) &&& 1 = 1 then expα (b * k % 63) else 0) ^^^
      (if (y >>> b) &&& 1 = 1 then expα (b * k % 63) else 0) := by
  have hbit : ((x ^^^ y) >>> b) &&& 1 = ((x >>> b) &&& 1) ^^^ ((y >>> b) &&& 1) := by
    rw [xor_shiftRight, Nat.and_xor_distrib_right]
  have hu : (x >>> b) &&& 1 ≤ 1 := Nat.and_le_right
  have hv : (y >>> b) &&& 1 ≤ 1 := Nat.and_le_right
  rw [hbit]
  interval_cases hx : (x >>> b) &&& 1 <;> interval_cases hy : (y >>> b) &&& 1 <;>
    simp [Nat.xor_self]

/-- Syndrome coefficients are additive over xor of received words. -/
theorem synAt_add (k x y : Nat) : synAt k (x ^^^ y) = synAt k x ^^^ synAt k y := by
  rw [synAt_eq, synAt_eq, synAt_eq, ← foldl_xor_pointwise]
  apply foldl_fun_congr
  intro s b
  rw [synTerm_add k x y b]

/-- Parity bits are additive over xor of data words. -/
theorem par16_add (g x y : Nat) : par16 g (x ^^^ y) = par16 g x ^^^ par16 g y := by
  unfold par16
  rw [← foldl_xor_pointwise]
  apply foldl_fun_congr
  intro a j
  rw [xor_shiftRight, Nat.and_xor_distrib_left, Nat.and_xor_distrib_right]

/-- A parity bit is a single bit. -/
theorem par16_le_one (g w : Nat) : par16 g w ≤ 1 := by
  unfold par16
  apply foldl_inv (P := fun a => a ≤ 1)
  · exact Nat.zero_le 1
  · intro a j ha
    have ht : (g >>> j) &&& (w >>> j) &&& 1 ≤ 1 := Nat.and_le_right
    interval_cases a <;> interval_cases h : (g >>> j) &&& (w >>> j) &&& 1 <;> decide

/-- The systematic encoding fold is additive in both word and accumulator. -/
theorem encAux_xor (l : List Nat) :
    ∀ x y a b : Nat, encAux l (x ^^^ y) (a ^^^ b) = encAux l x a ^^^ encAux l y b := by
  induction l with
  | nil => intro x y a b; rfl
  | cons r t ih =>
    intro x y a b
    show encAux t (x ^^^ y) (2 * (a ^^^ b) + par16 r (x ^^^ y)) = _
    have hstep : 2 * (a ^^^ b) + par16 r (x ^^^ y) =
        (2 * a + par16 r x) ^^^ (2 * b + par16 r y) := by
      have hp := par16_le_one r x
      have hq := par16_le_one r y
      have hpq : par16 r x ^^^ par16 r y ≤ 1 := by
        interval_cases hx : par16 r x <;> interval_cases hy : par16 r y <;> decide
      rw [par16_add, two_mul_add_xor _ _ hpq, two_mul_xor,
        two_mul_add_xor _ _ hp, two_mul_add_xor _ _ hq]
      rw [Nat.xor_assoc, Nat.xor_assoc]
      rw [xor_left_comm (par16 r x)]
    rw [hstep]
    exact ih x y _ _

/-- Encoding is GF(2)-linear. -/
theorem encode_xor (x y : Nat) : encode (x ^^^ y) = encode x ^^^ encode y :=
  encAux_xor GEN x y x y

/-- The encoding fold splits into the shifted accumulator plus a parity
remainder below `2^48`. -/
theorem encAux_acc (l : List Nat) (w : Nat) :
    ∀ x, encAux l w x = x * 2 ^ l.length + encAux l w 0 ∧
      encAux l w 0 < 2 ^ l.length := by
  induction l with
  | nil =>
    intro x
    constructor
    · show x = x * 1 + 0
      omega
    · show (0 : Nat) < 1
      decide
  | cons r t ih =>
    intro x
    have h1 := ih (2 * x + par16 r w)
    have h2 := ih (2 * 0 + par16 r w)
    have hp := par16_le_one r w
    constructor
    · show encAux t w (2 * x + par16 r w) =
        x * 2 ^ (t.length + 1) + encAux t w (2 * 0 + par16 r w)
      rw [h1.1, h2.1, Nat.pow_succ]
      ring
    · show encAux t w (2 * 0 + par16 r w) < 2 ^ (t.length + 1)
      rw [h2.1]
      have hpow : 2 ^ (t.length + 1) = 2 ^ t.length * 2 := by rw [Nat.pow_succ]
      have hbound := h1.2
      set P2 := 2 ^ t.length
      have : (2 * 0 + par16 r w) * P2 ≤ 1 * P2 := by
        apply Nat.mul_le_mul_right
        omega
      omega

/-- The data word occupies the top 16 bits of the codeword. -/
theorem encode_shiftRight48 (w : Nat) : encode w >>> 48 = w := by
  have hlen : GEN.length = 48 := by decide
  have h1 := (encAux_acc GEN w w).1
  have h2 := (encAux_acc GEN w w).2
  rw [hlen] at h1 h2
  show encAux GEN w w >>> 48 = w
  rw [h1, Nat.shiftRight_eq_div_pow, Nat.mul_comm w (2 ^ 48),
    Nat.mul_add_div (by norm_num), Nat.div_eq_of_lt h2]
  omega

/-- The 16 basis words encode to valid codewords: all 22 true syndromes of
`encode(2^i) >> 1` vanish. -/
theorem syndromes_basis :
    ∀ i : Fin 16, ∀ j : Fin 22, synAt (j.val + 1) (encode (1 <<< i.val) >>> 1) = 0 := by
  decide

/-- Syndromes of the zero word vanish. -/
theorem synAt_zero_word : ∀ j : Fin 22, synAt (j.val + 1) 0 = 0 := by
  decide

/-- Every 16-bit data word encodes to a word whose 22 true syndromes
vanish. -/
theorem synAt_encode : ∀ w : Nat, w < 2 ^ 16 →
    ∀ j : Fin 22, synAt (j.val + 1) (encode w >>> 1) = 0 := by
  intro w
  induction w using Nat.strong_induction_on with
  | _ w ih =>
    intro hw j
    rcases Nat.eq_zero_or_pos w with h0 | hpos
    · subst h0
      have henc : encode 0 >>> 1 = 0 := by decide
      rw [henc]
      exact synAt_zero_word j
    · have hw0 : w ≠ 0 := by omega
      have h2i : 2 ^ Nat.log2 w ≤ w := Nat.log2_self_le hw0
      have hlt : w < 2 ^ (Nat.log2 w + 1) := Nat.lt_log2_self
      have hi16 : Nat.log2 w < 16 := (Nat.log2_lt hw0).mpr hw
      have hpow2 : 2 ^ (Nat.log2 w + 1) = 2 ^ Nat.log2 w * 2 := by rw [Nat.pow_succ]
      have hrlt : w - 2 ^ Nat.log2 w < 2 ^ Nat.log2 w := by omega
      have hw_eq : w = 2 ^ Nat.log2 w ^^^ (w - 2 ^ Nat.log2 w) := by
        rw [two_pow_xor_of_lt _ _ hrlt]
        omega
      have hppos : 0 < 2 ^ Nat.log2 w := Nat.pos_pow_of_pos _ (by omega)
      have hrw : w - 2 ^ Nat.log2 w < w := by omega
      rw [hw_eq, encode_xor, xor_shiftRight, synAt_add]
      have h1 : synAt (j.val + 1) (encode (2 ^ Nat.log2 w) >>> 1) = 0 := by
        have hb := syndromes_basis ⟨Nat.log2 w, hi16⟩ j
        rwa [Nat.one_shiftLeft] at hb
      have h2 : synAt (j.val + 1) (encode (w - 2 ^ Nat.log2 w) >>> 1) = 0 :=
        ih _ hrw (by omega) j
      rw [h1, h2]
      decide

/-- The syndrome polynomial of any encoded word is the bare sentinel. -/
theorem syndromes_encode (w : Nat) (hw : w < 2 ^ 16) :
    syndromes (encode w >>> 1) = mkPoly [1] := by
  unfold syndromes
  have hmap : (List.range 22).map (fun j => synAt (j + 1) (encode w >>> 1)) =
      List.replicate 22 0 := by
    rw [List.eq_replicate_iff]
    constructor
    · simp
    · intro b hb
      rw [List.mem_map] at hb
      obtain ⟨j, hj, hjb⟩ := hb
      rw [List.mem_range] at hj
      rw [← hjb]
      exact synAt_encode w hw ⟨j, hj⟩
  rw [hmap]
  decide

/-! ## Claim C1: decoding an encoded word -/

/-- C1: decoding a freshly encoded 16-bit word succeeds with the word
itself and zero corrected errors. -/
theorem c1_decode_encode (w : Nat) (hw : w < 2 ^ 16) :
    decode (encode w) = DecRes.ok (some (w, 0)) := by
  obtain ⟨e, he, hd⟩ := decode_shape (encode w)
  rw [syndromes_encode w hw] at he hd
  have he0 : pdeg (bmDecode (mkPoly [1])) = some 0 := by decide
  rw [he0] at he
  have he' : e = 0 := by
    cases he
    rfl
  subst he'
  rw [hd, if_pos (by simp)]
  simp only [List.take_zero, List.foldl_nil]
  have hsh : encode w >>> 1 >>> 47 = w := by
    rw [← Nat.shiftRight_add]
    exact encode_shiftRight48 w
  rw [hsh]

/-- Witness for C1 at the data word `0x1234`. -/
theorem c1_decode_encode_witness :
    0x1234 < 2 ^ 16 ∧ decode (encode 0x1234) = DecRes.ok (some (0x1234, 0)) :=
  ⟨by decide, c1_decode_encode 0x1234 (by decide)⟩

/-! ## Claim C4: the overall-parity bit -/

/-- C4, counterexample: `0b0101` has even popcount, yet bit 0 of its
codeword is 1 (also asserted by `test_encode` in bch.rs line 153). -/
theorem c4_parity_counterexample :
    popc 0b0101 % 2 = 0 ∧ encode 0b0101 &&& 1 = 1 := by
  constructor
  · decide
  · decide

/-- C4, amended: bit 0 of `encode(w)` is the GF(2) dot product of `w` with
the last generator row `0b11`, i.e. the XOR of the two least significant
data bits - not the overall popcount parity of `w`. -/
theorem c4_parity_bit (w : Nat) :
    encode w &&& 1 = (w &&& 1) ^^^ ((w >>> 1) &&& 1) := by
  have hsplit : GEN = GEN.dropLast ++ [0b11] := by decide
  have henc : encode w = 2 * encAux GEN.dropLast w w + par16 0b11 w := by
    show encAux GEN w w = _
    rw [hsplit]
    unfold encAux
    rw [List.foldl_append]
    rfl
  have hp := par16_le_one 0b11 w
  have hbit : (2 * encAux GEN.dropLast w w + par16 0b11 w) &&& 1 = par16 0b11 w := by
    rw [Nat.and_one_is_mod]
    omega
  rw [henc, hbit]
  have hrange : List.range 16 = [0, 1, 2, 3, 4, 5, 6, 7, 8, 9, 10, 11, 12, 13, 14, 15] := by
    decide
  have and3w : 3 &&& w &&& 1 = w &&& 1 := by
    rw [Nat.and_assoc]
    have hv : w &&& 1 ≤ 1 := Nat.and_le_right
    interval_cases h : w &&& 1 <;> decide
  unfold par16
  rw [hrange]
  simp only [List.foldl_cons, List.foldl_nil]
  norm_num [show (3 : Nat) >>> 1 = 1 from by decide,
    show (3 : Nat) >>> 2 = 0 from by decide, show (3 : Nat) >>> 3 = 0 from by decide,
    show (3 : Nat) >>> 4 = 0 from by decide, show (3 : Nat) >>> 5 = 0 from by decide,
    show (3 : Nat) >>> 6 = 0 from by decide, show (3 : Nat) >>> 7 = 0 from by decide,
    show (3 : Nat) >>> 8 = 0 from by decide, show (3 : Nat) >>> 9 = 0 from by decide,
    show (3 : Nat) >>> 10 = 0 from by decide, show (3 : Nat) >>> 11 = 0 from by decide,
    show (3 : Nat) >>> 12 = 0 from by decide, show (3 : Nat) >>> 13 = 0 from by decide,
    show (3 : Nat) >>> 14 = 0 from by decide, show (3 : Nat) >>> 15 = 0 from by decide]
  simp only [← Nat.and_one_is_mod]
  rw [and3w]



/-- Unfolding the runner over a successful `next()`. -/
theorem c4fmRunAux_next_some {P fuel : Nat} {x : Int} {st st2 : C4fmState}
    (h : c4fmNext P st = some (x, st2)) :
    c4fmRunAux P (fuel + 1) st = x :: c4fmRunAux P fuel st2 := by
  show (match c4fmNext P st with
    | none => []
    | some (x, st2) => x :: c4fmRunAux P fuel st2) = _
  rw [h]

/-- Unfolding the runner over an exhausted `next()`. -/
theorem c4fmRunAux_next_none {P fuel : Nat} {st : C4fmState}
    (h : c4fmNext P st = none) : c4fmRunAux P (fuel + 1) st = [] := by
  show (match c4fmNext P st with
    | none => []
    | some (x, st2) => x :: c4fmRunAux P fuel st2) = _
  rw [h]

/-- Away from a symbol boundary the shaper emits zeros until the next
boundary. -/
theorem c4fm_zeros (P : Nat) :
    ∀ r : Nat, r < P → ∀ (s fuel : Nat) (src : List (Fin 4)),
      (0 < r → s % P = P - r) → r ≤ fuel →
      c4fmRunAux P fuel ⟨src, s⟩ =
        List.replicate r 0 ++ c4fmRunAux P (fuel - r) ⟨src, s + r⟩ := by
  intro r
  induction r with
  | zero =>
    intro _ s fuel src _ _
    simp
  | succ r ih =>
    intro hrP s fuel src hs hf
    have hsP : s % P = P - (r + 1) := hs (by omega)
    have hne : s % P ≠ 0 := by omega
    obtain ⟨f, rfl⟩ : ∃ f, fuel = f + 1 := ⟨fuel - 1, by omega⟩
    have hnext : c4fmNext P ⟨src, s⟩ = some (0, ⟨src, s + 1⟩) := by
      unfold c4fmNext
      rw [if_pos hne]
    rw [c4fmRunAux_next_some hnext]
    have hrec := ih (by omega) (s + 1) f src
      (by
        intro hr
        have h1 : (s + 1) % P = (s % P + 1 % P) % P := Nat.add_mod s 1 P
        have h2 : (1 : Nat) % P = 1 := Nat.mod_eq_of_lt (by omega)
        rw [h1, h2, Nat.mod_eq_of_lt (by omega), hsP]
        omega)
      (by omega)
    rw [hrec]
    have harith : s + 1 + r = s + (r + 1) := by omega
    have hfuel : f - r = f + 1 - (r + 1) := by omega
    rw [harith, hfuel, List.replicate_succ, List.cons_append]

/-- Starting at a symbol boundary, the shaper emits the impulse of each
dibit followed by `P - 1` zeros, and stops with the source. -/
theorem c4fm_main (P : Nat) (hP : 0 < P) :
    ∀ (src : List (Fin 4)) (s fuel : Nat), s % P = 0 → src.length * P + 1 ≤ fuel →
      c4fmRunAux P fuel ⟨src, s⟩ =
        src.flatMap (fun d => impulseMap d :: List.replicate (P - 1) 0) := by
  intro src
  induction src with
  | nil =>
    intro s fuel hs hf
    obtain ⟨f, rfl⟩ : ∃ f, fuel = f + 1 := ⟨fuel - 1, by omega⟩
    have hnext : c4fmNext P ⟨[], s⟩ = none := by
      unfold c4fmNext
      rw [if_neg (fun h : s % P ≠ 0 => h hs)]
    rw [c4fmRunAux_next_none hnext]
    rfl
  | cons d rest ih =>
    intro s fuel hs hf
    have hexp : (d :: rest).length * P = rest.length * P + P := by
      show (rest.length + 1) * P = _
      ring
    have hflen : rest.length * P + P + 1 ≤ fuel := by omega
    obtain ⟨f, rfl⟩ : ∃ f, fuel = f + 1 := ⟨fuel - 1, by omega⟩
    have hnext : c4fmNext P ⟨d :: rest, s⟩ = some (impulseMap d, ⟨rest, s + 1⟩) := by
      unfold c4fmNext
      rw [if_neg (fun h : s % P ≠ 0 => h hs)]
    rw [c4fmRunAux_next_some hnext]
    have hzeros := c4fm_zeros P (P - 1) (by omega) (s + 1) f rest
      (by
        intro hr
        have h1 : (s + 1) % P = (s % P + 1 % P) % P := Nat.add_mod s 1 P
        have h2 : (1 : Nat) % P = 1 := Nat.mod_eq_of_lt (by omega)
        rw [h1, h2, hs, Nat.mod_eq_of_lt (by omega)]
        omega)
      (by omega)
    rw [hzeros]
    have harith : s + 1 + (P - 1) = s + P := by omega
    have hrest := ih (s + P) (f - (P - 1))
      (by rw [Nat.add_mod_right, hs]) (by omega)
    rw [harith, hrest, List.flatMap_cons, List.cons_append]

/-! ## Claim C8: the C4FM impulse shaper -/

/-- C8: for every finite dibit source and positive symbol period `P`, the
shaper emits exactly `P` samples per consumed dibit - the mapped impulse of
the dibit (table `01→+0.18, 00→+0.06, 10→−0.06, 11→−0.18`, in integer
hundredths) followed by `P - 1` zeros - and terminates when the source is
exhausted; the output does not depend on the fuel once the fuel covers the
source. -/
theorem c8_c4fm_shape (P : Nat) (hP : 0 < P) (src : List (Fin 4)) :
    c4fmRun P src = src.flatMap (fun d => impulseMap d :: List.replicate (P - 1) 0) ∧
    ∀ fuel, src.length * P + 1 ≤ fuel →
      c4fmRunAux P fuel ⟨src, 0⟩ =
        src.flatMap (fun d => impulseMap d :: List.replicate (P - 1) 0) := by
  constructor
  · exact c4fm_main P hP src 0 _ (Nat.zero_mod P) (Nat.le_refl _)
  · intro fuel hf
    exact c4fm_main P hP src 0 fuel (Nat.zero_mod P) hf

/-- Witness for C8: period 2, dibit source `00, 01, 10, 11`, concrete
sample list. -/
theorem c8_c4fm_shape_witness :
    c4fmRun 2 [0, 1, 2, 3] = [6, 0, 18, 0, -6, 0, -18, 0] :=
  ((c8_c4fm_shape 2 (by decide) [0, 1, 2, 3]).1).trans (by decide)

end P25
